import Mathlib

/-!
Verification development for the btreedb repository: an embedded,
single-file, transactional key-value storage engine (copy-on-write
B+tree over fixed-size pages, two alternating meta pages, single
writer / multiple readers, compaction into a fresh file).

The repository's src/ tree contains only the demo driver `main.c`;
the engine itself (`btree.c`) is not present.  The engine below is
therefore modelled from the specification (each such definition says
so in its doc comment), while the driver is embedded directly from
`main.c`.
-/

namespace BtreeDB

/-- A byte string: keys and values are length-delimited byte sequences. -/
abbrev Bytes := List Nat

/-- Byte-lexicographic strict order on byte strings (a strict prefix is
smaller), the key order of the spec: "keys compared as raw byte
sequences, shortest-prefix-first (standard lexicographic byte ordering)". -/
def bytesLt : Bytes → Bytes → Bool
  | [], [] => false
  | [], _ :: _ => true
  | _ :: _, [] => false
  | a :: as, b :: bs =>
    if a < b then true
    else if a = b then bytesLt as bs
    else false

/-- Non-strict byte-lexicographic order. -/
def bytesLe (a b : Bytes) : Bool := !(bytesLt b a)

/-- Modelled from the spec (the engine source is missing): page size of
the fixed-size pages ("e.g. 4 KiB"). -/
def pageSize : Nat := 4096

/-- Modelled from the spec: capacity of a node page, abstracted as a
maximum entry count (in the real layout it is a free-space byte
cursor); a leaf or branch that would exceed it overflows and splits. -/
def pageCap : Nat := 4

/-- Modelled from the spec: a data page is a branch node ("ordered array
of (separator key, child page id) pairs") or a leaf node ("ordered
array of (key, value) pairs").  Meta pages are kept separately in
`DFile` at their fixed offsets. -/
inductive Page
  | leaf (entries : List (Bytes × Bytes))
  | branch (entries : List (Bytes × Nat))
deriving DecidableEq

/-- Modelled from the spec: a meta page holds the current tree root page
id (none for an empty tree) and the monotonically increasing
transaction counter.  The free-list root is omitted: the model uses the
documented reclamation choice "leave garbage pages for the next
compaction", under which the free list stays empty. -/
structure Meta where
  root : Option Nat
  txnid : Nat
deriving DecidableEq

/-- Modelled from the spec: the backing file — two meta pages at fixed
offsets (page ids 0 and 1) followed by the data pages; the data page
with page id `pid` (`pid ≥ 2`) is `data.get? (pid - 2)`. -/
structure DFile where
  meta0 : Meta
  meta1 : Meta
  data : List Page
deriving DecidableEq

/-- File size in bytes: every page is `pageSize` bytes and the two meta
pages are always present. -/
def DFile.size (f : DFile) : Nat := (2 + f.data.length) * pageSize

/-- Modelled from the spec: "the meta page with the higher transaction
counter is current"; returns (slot, meta). -/
def currentMeta (f : DFile) : Nat × Meta :=
  if f.meta0.txnid < f.meta1.txnid then (1, f.meta1) else (0, f.meta0)

/-- Durability events appended to the event log: a data-page write, a
meta-page write at the given slot carrying the new root and counter,
and an fsync barrier. -/
inductive Ev
  | writeData (pid : Nat)
  | writeMeta (slot : Nat) (root : Option Nat) (txnid : Nat)
  | fsync
deriving DecidableEq

/-- Transaction states per the spec's state machine
`Active → {Committed, Aborted}`. -/
inductive TxnState
  | active
  | committedSt
  | abortedSt
deriving DecidableEq

/-- Modelled from the spec: an in-memory transaction record — read-only
flag, the file handle and root page id snapshotted at begin, the dirty
page ids pending commit (write transactions), and the state-machine
state.  For a write transaction `root` is the pending root, updated by
every put. -/
structure Txn where
  readOnly : Bool
  fd : Nat
  root : Option Nat
  dirty : List Nat
  state : TxnState
deriving DecidableEq

/-- Modelled from the spec: the engine state — the open files (a
compaction appends a fresh file and moves the current handle to it,
while readers that began earlier keep using their prior file), the
current file handle, the writer-exclusivity lock, and the durability
event log. -/
structure DB where
  files : List DFile
  curFd : Nat
  writerActive : Bool
  events : List Ev
deriving DecidableEq

/-- Error taxonomy of the spec (§7), as far as the model can surface it. -/
inductive Err
  | ioError
  | corruptionError
  | outOfSpace
  | transactionStateError
  | lockBusy
deriving DecidableEq

/-- Read the data page with page id `pid` (ids 0 and 1 are the meta
pages, never data). -/
def readPage (data : List Page) (pid : Nat) : Option Page :=
  if pid < 2 then none else data.get? (pid - 2)

/-- Lookup of a key among a leaf's entries. -/
def leafLookup (k : Bytes) : List (Bytes × Bytes) → Option Bytes
  | [] => none
  | (k', v) :: rest => if k' = k then some v else leafLookup k rest

/-- Scan the remaining branch entries, keeping the child of the last
separator that is `≤ k`. -/
def branchSel (k : Bytes) (acc : Nat) : List (Bytes × Nat) → Nat
  | [] => acc
  | (s, c) :: rest => if bytesLe s k then branchSel k c rest else acc

/-- Child chosen when descending a branch page: the child of the last
entry whose separator is `≤ k`, defaulting to the first child (the
first separator acts as a low fence). -/
def branchChild (k : Bytes) : List (Bytes × Nat) → Option Nat
  | [] => none
  | (_, c0) :: rest => some (branchSel k c0 rest)

/-- Modelled from the spec: `get` descends from a root "comparing keys
byte-lexicographically".  Fuel-indexed descent over the page store;
`none` = unreadable/corrupt page or exhausted fuel, `some none` = key
not found, `some (some v)` = found. -/
def getAux : Nat → List Page → Nat → Bytes → Option (Option Bytes)
  | 0, _, _, _ => none
  | fuel + 1, data, pid, k =>
    match readPage data pid with
    | none => none
    | some (.leaf es) => some (leafLookup k es)
    | some (.branch es) =>
      match branchChild k es with
      | none => none
      | some c => getAux fuel data c k

/-- Lookup from a given root in a file (an empty tree holds no keys). -/
def getTree (f : DFile) (root : Option Nat) (k : Bytes) : Option (Option Bytes) :=
  match root with
  | none => some none
  | some r => getAux (f.data.length + 1) f.data r k

/-- Sorted insertion (replacing an equal key) into a leaf's entries. -/
def leafInsert (k v : Bytes) : List (Bytes × Bytes) → List (Bytes × Bytes)
  | [] => [(k, v)]
  | (k', v') :: rest =>
    if k' = k then (k, v) :: rest
    else if bytesLt k k' = true then (k, v) :: (k', v') :: rest
    else (k', v') :: leafInsert k v rest

/-- Allocate a fresh page at the end of the file (copy-on-write never
reuses a live id; under the documented "reclaim only via compaction"
choice the free list is always empty, so allocation always extends the
file).  Returns the new store and the new page id. -/
def allocPage (data : List Page) (p : Page) : List Page × Nat :=
  (data ++ [p], 2 + data.length)

/-- Result of a copy-on-write insertion into a subtree: either one new
subtree root, or — after a split — two new roots and the promoted
separator ("the smallest key of the new right half"). -/
inductive InsRes
  | one (pid : Nat)
  | two (l : Nat) (sep : Bytes) (r : Nat)
deriving DecidableEq

/-- Rebuild a branch's entry list, applying `f` to the entry selected by
`branchSel` for key `k` and keeping every other entry. -/
def branchApplyGo (k : Bytes) (f : Bytes → Nat → List (Bytes × Nat)) (s : Bytes) (c : Nat) :
    List (Bytes × Nat) → List (Bytes × Nat)
  | [] => f s c
  | (s', c') :: rest =>
    if bytesLe s' k then (s, c) :: branchApplyGo k f s' c' rest
    else f s c ++ (s', c') :: rest

/-- Rebuild a branch's entries around the child selected for `k`. -/
def branchApply (k : Bytes) (f : Bytes → Nat → List (Bytes × Nat)) :
    List (Bytes × Nat) → List (Bytes × Nat)
  | [] => []
  | (s0, c0) :: rest => branchApplyGo k f s0 c0 rest

/-- Modelled from the spec: copy-on-write insertion — "every visited
node page is cloned into a new page id before modification"; an
overflowing node "is partitioned in two, the smallest key of the new
right half is promoted as a separator into the parent, splitting
cascades upward". -/
def insertAux : Nat → List Page → Nat → Bytes → Bytes → Option (List Page × InsRes)
  | 0, _, _, _, _ => none
  | fuel + 1, data, pid, k, v =>
    match readPage data pid with
    | none => none
    | some (.leaf es) =>
      let es' := leafInsert k v es
      if es'.length ≤ pageCap then
        let (d, nid) := allocPage data (.leaf es')
        some (d, .one nid)
      else
        let l := es'.take ((es'.length + 1) / 2)
        let r := es'.drop ((es'.length + 1) / 2)
        match r with
        | [] => none
        | (sk, _) :: _ =>
          let (d1, lid) := allocPage data (.leaf l)
          let (d2, rid) := allocPage d1 (.leaf r)
          some (d2, .two lid sk rid)
    | some (.branch es) =>
      match branchChild k es with
      | none => none
      | some c =>
        match insertAux fuel data c k v with
        | none => none
        | some (d, .one nid) =>
          let es' := branchApply k (fun s _ => [(s, nid)]) es
          let (d2, bid) := allocPage d (.branch es')
          some (d2, .one bid)
        | some (d, .two lid sk rid) =>
          let es' := branchApply k (fun s _ => [(s, lid), (sk, rid)]) es
          if es'.length ≤ pageCap then
            let (d2, bid) := allocPage d (.branch es')
            some (d2, .one bid)
          else
            let l := es'.take ((es'.length + 1) / 2)
            let r := es'.drop ((es'.length + 1) / 2)
            match r with
            | [] => none
            | (sk', _) :: _ =>
              let (d1, lid') := allocPage d (.branch l)
              let (d2, rid') := allocPage d1 (.branch r)
              some (d2, .two lid' sk' rid')

/-- Modelled from the spec: insertion from the (possibly empty) root; a
root split "may create a new root, in which case the transaction's
pending root is updated".  Returns the new store and new root id. -/
def putRoot (data : List Page) (root : Option Nat) (k v : Bytes) :
    Option (List Page × Nat) :=
  match root with
  | none =>
    let (d, nid) := allocPage data (.leaf [(k, v)])
    some (d, nid)
  | some r =>
    match insertAux (data.length + 1) data r k v with
    | none => none
    | some (d, .one nid) => some (d, nid)
    | some (d, .two lid sk rid) =>
      let (d2, nr) := allocPage d (.branch [([], lid), (sk, rid)])
      some (d2, nr)

/-- Modelled from the spec: `open` on a fresh path "writes two initial
meta pages" for an empty tree. -/
def initFile : DFile := ⟨⟨none, 0⟩, ⟨none, 0⟩, []⟩

/-- Modelled from the spec: opening a new, empty database. -/
def btreeOpen : DB := ⟨[initFile], 0, false, []⟩

/-- Size of the file behind the current handle (what the driver's
`stat` observes). -/
def dbSize (db : DB) : Nat :=
  match db.files.get? db.curFd with
  | none => 0
  | some f => f.size

/-- Modelled from the spec: the caller-invokable flush — all dirty state
is forced to storage (an fsync barrier in the event log). -/
def btreeSync (db : DB) : DB := { db with events := db.events ++ [Ev.fsync] }

/-- Modelled from the spec: `begin(read_only)` — a write transaction
takes the exclusive writer lock and fails with `LockBusy` if another
writer is active; a read transaction never blocks and never takes the
lock, "recording only the current meta snapshot's root id". -/
def txnBegin (db : DB) (readOnly : Bool) : Except Err (DB × Txn) :=
  if !readOnly && db.writerActive then .error .lockBusy
  else
    match db.files.get? db.curFd with
    | none => .error .ioError
    | some f =>
      .ok ({ db with writerActive := db.writerActive || !readOnly },
           ⟨readOnly, db.curFd, (currentMeta f).2.root, [], .active⟩)

/-- Modelled from the spec: `put` — valid only on an active write
transaction; performs the copy-on-write insertion, records the newly
allocated page ids as dirty and updates the pending root. -/
def txnPut (db : DB) (t : Txn) (k v : Bytes) : Except Err (DB × Txn) :=
  if t.state ≠ .active then .error .transactionStateError
  else if t.readOnly then .error .transactionStateError
  else
    match db.files.get? t.fd with
    | none => .error .ioError
    | some f =>
      match putRoot f.data t.root k v with
      | none => .error .corruptionError
      | some (d, nr) =>
        let newIds := List.range' (2 + f.data.length) (d.length - f.data.length)
        .ok ({ db with files := db.files.set t.fd { f with data := d } },
             { t with root := some nr, dirty := t.dirty ++ newIds })

/-- The durability events a commit appends: every dirty data page is
written, then an fsync barrier; only then the alternate meta page
(carrying the new root and incremented counter) is written and fsynced. -/
def commitEvents (t : Txn) (slot : Nat) (txnid : Nat) : List Ev :=
  t.dirty.map Ev.writeData ++
    [Ev.fsync, Ev.writeMeta slot t.root txnid, Ev.fsync]

/-- Modelled from the spec: `commit` — valid only on an active write
transaction (else `TransactionStateError`); flushes and fsyncs the
dirty pages, then overwrites the alternate meta page with the new root
id and incremented transaction counter, fsyncs it, and releases the
writer lock. -/
def txnCommit (db : DB) (t : Txn) : Except Err (DB × Txn) :=
  if t.state ≠ .active then .error .transactionStateError
  else if t.readOnly then .error .transactionStateError
  else
    match db.files.get? t.fd with
    | none => .error .ioError
    | some f =>
      let (slot, m) := currentMeta f
      let m' : Meta := ⟨t.root, m.txnid + 1⟩
      let f' := if slot = 0 then { f with meta1 := m' } else { f with meta0 := m' }
      .ok ({ db with
              files := db.files.set t.fd f',
              writerActive := false,
              events := db.events ++ commitEvents t (1 - slot) (m.txnid + 1) },
           { t with state := .committedSt })

/-- Modelled from the spec: `abort` — discards the dirty-page set
(leaving those pages as garbage for the next compaction, the documented
choice), releases the writer lock if held, and moves the transaction to
its terminal state; on an already-terminal transaction it fails with
`TransactionStateError`. -/
def txnAbort (db : DB) (t : Txn) : Except Err (DB × Txn) :=
  if t.state ≠ .active then .error .transactionStateError
  else
    .ok ({ db with writerActive := db.writerActive && t.readOnly },
         { t with state := .abortedSt, dirty := [] })

/-- Handle-level `get`: reads the current meta snapshot of the current
file. -/
def btreeGet (db : DB) (k : Bytes) : Option (Option Bytes) :=
  match db.files.get? db.curFd with
  | none => none
  | some f => getTree f (currentMeta f).2.root k

/-- `get` through a transaction's snapshot (its file handle and root as
recorded at begin; for a writer, the pending root). -/
def txnGet (db : DB) (t : Txn) (k : Bytes) : Option (Option Bytes) :=
  match db.files.get? t.fd with
  | none => none
  | some f => getTree f t.root k

/-- A sequence of puts inside one transaction, stopping at the first
failure. -/
def putMany (db : DB) (t : Txn) : List (Bytes × Bytes) → Except Err (DB × Txn)
  | [] => .ok (db, t)
  | (k, v) :: rest =>
    match txnPut db t k v with
    | .error e => .error e
    | .ok (db', t') => putMany db' t' rest

/-- Copy every child of a branch in order with the subtree-copy `f`,
rebuilding the entry list with the same separators and the copied
children's new ids. -/
def copyList (f : Nat → List Page → Option (List Page × Nat)) :
    List (Bytes × Nat) → List Page → Option (List Page × List (Bytes × Nat))
  | [], dst => some (dst, [])
  | (s, c) :: rest, dst =>
    match f c dst with
    | none => none
    | some (dst', c') =>
      match copyList f rest dst' with
      | none => none
      | some (dst'', rest') => some (dst'', (s, c') :: rest')

/-- Modelled from the spec: the compactor's traversal, "copying every
live page contiguously into a new file": children are copied before
their parent, and a branch keeps its separators with the children's new
page ids.  Returns the grown destination store and the subtree's new
root id. -/
def copyTree : Nat → List Page → Nat → List Page → Option (List Page × Nat)
  | 0, _, _, _ => none
  | fuel + 1, src, pid, dst =>
    match readPage src pid with
    | none => none
    | some (.leaf es) => some (allocPage dst (.leaf es))
    | some (.branch es) =>
      match copyList (fun c d => copyTree fuel src c d) es dst with
      | none => none
      | some (dst', es') => some (allocPage dst' (.branch es'))

/-- Concatenated results of the per-child traversal `f` over a branch's
children. -/
def liveList (f : Nat → Option (List Nat)) : List (Bytes × Nat) → Option (List Nat)
  | [] => some []
  | (_, c) :: rest =>
    match f c with
    | none => none
    | some l =>
      match liveList f rest with
      | none => none
      | some l' => some (l ++ l')

/-- The preorder list of page ids of the live tree below `pid` (the
pages the compactor copies). -/
def liveIds : Nat → List Page → Nat → Option (List Nat)
  | 0, _, _ => none
  | fuel + 1, data, pid =>
    match readPage data pid with
    | none => none
    | some (.leaf _) => some [pid]
    | some (.branch es) =>
      match liveList (fun c => liveIds fuel data c) es with
      | none => none
      | some l => some (pid :: l)

/-- Structural well-formedness of a file's current tree: the live pages
are readable and no page is reachable twice (the tree really is a
tree — which copy-on-write path copying maintains, since a put never
references the same new page from two places). -/
def treeWF (f : DFile) : Bool :=
  match (currentMeta f).2.root with
  | none => true
  | some r =>
    match liveIds (f.data.length + 1) f.data r with
    | none => false
    | some l => decide l.Nodup

/-- Modelled from the spec: compacting one file — traverse from the
current meta root copying every live page contiguously into a fresh
file, and build a fresh pair of meta pages. -/
def compactFile (f : DFile) : Option DFile :=
  match (currentMeta f).2.root with
  | none => some ⟨⟨none, (currentMeta f).2.txnid⟩, ⟨none, 0⟩, []⟩
  | some r =>
    match copyTree (f.data.length + 1) f.data r [] with
    | none => none
    | some (d, nr) => some ⟨⟨some nr, (currentMeta f).2.txnid⟩, ⟨none, 0⟩, d⟩

/-- Modelled from the spec: `compact()` — requires no concurrent write
transaction; rewrites the live pages into a fresh file, fsyncs it and
atomically swaps it in (the current handle moves to the new file;
readers that began earlier keep their already-opened prior file, which
stays in `files` unchanged). -/
def btreeCompact (db : DB) : Except Err DB :=
  if db.writerActive then .error .lockBusy
  else
    match db.files.get? db.curFd with
    | none => .error .ioError
    | some f =>
      match compactFile f with
      | none => .error .corruptionError
      | some f' =>
        .ok { db with
                files := db.files ++ [f'],
                curFd := db.files.length,
                events := db.events ++ [Ev.fsync] }

/-! ### The driver's concrete scenario

`main.c` opens an empty database, syncs, begins one write transaction,
puts the key buffer of the C literal `"Hi"` with size 3 and the value
buffer of `"Mike"` with size 5, commits, and compacts, recording the
file size at each stage. -/

/-- The 3 bytes of the driver's key buffer: the C string literal `"Hi"`
with its terminating NUL, passed with `key.size = 3`. -/
def hiKey : Bytes := [72, 105, 0]

/-- The 5 bytes of the driver's value buffer: the C string literal
`"Mike"` with its terminating NUL, passed with `val.size = 5`. -/
def mikeVal : Bytes := [77, 105, 107, 101, 0]

/-- Fallback-extraction from an `Except` (used only to name the
concrete scenario states, all of which are in fact `ok`). -/
def exGet {α : Type} (d : α) : Except Err α → α
  | .ok a => a
  | .error _ => d

/-- A placeholder transaction for `exGet` defaults. -/
def dummyTxn : Txn := ⟨true, 0, none, [], .active⟩

/-- Scenario state after `open` and `sync` (file size S0). -/
def scen1 : DB := btreeSync btreeOpen

/-- Scenario state and transaction after `begin(write)`. -/
def scen2 : DB × Txn := exGet (scen1, dummyTxn) (txnBegin scen1 false)

/-- Scenario state after `put("Hi\0", "Mike\0")`. -/
def scen3 : DB × Txn := exGet scen2 (txnPut scen2.1 scen2.2 hiKey mikeVal)

/-- Scenario state after `commit` (file size S1). -/
def scen4 : DB × Txn := exGet scen3 (txnCommit scen3.1 scen3.2)

/-- Scenario state after `compact` (file size S2). -/
def scen5 : DB := exGet scen4.1 (btreeCompact scen4.1)

end BtreeDB

namespace BtreeMain

open BtreeDB

/-! ### Embedding of the driver `main.c`

`main` is a straight-line sequence of calls, each followed by
`err(1, ...)` — i.e. exit status 1 — on failure.  It is embedded as a
function of an oracle giving each external call's result, returning the
process exit status and the list of engine calls issued, in order. -/

/-- `BT_SUCCESS`, the engine's success status. -/
def BT_SUCCESS : Nat := 0

/-- The results the driver's external calls may return: whether
`btree_open` and `btree_txn_begin` return non-NULL, the status codes of
the other engine calls, and whether each `stat` of the database file
succeeds. -/
structure Oracle where
  openOk : Bool
  syncRc : Nat
  stat1Ok : Bool
  beginOk : Bool
  putRc : Nat
  commitRc : Nat
  stat2Ok : Bool
  compactRc : Nat
  stat3Ok : Bool
deriving DecidableEq

/-- An engine call the driver can issue (constructors cover the whole
public API, so that "never called" is expressible). -/
inductive DCall
  | dOpen (path : List Nat) (flags : Nat) (mode : Nat)
  | dSync
  | dBegin (rdonly : Nat)
  | dPut (keyData : List Nat) (keySize : Nat) (valData : List Nat) (valSize : Nat) (flags : Nat)
  | dCommit
  | dAbort
  | dGet (keyData : List Nat)
  | dDel (keyData : List Nat)
  | dCompact
  | dClose
deriving DecidableEq

/-- The bytes of the driver's `DBPATH` literal `"/tmp/foo"`. -/
def dbPath : List Nat := [47, 116, 109, 112, 47, 102, 111, 111]

/-- The driver's `main`, straight from `main.c`: each engine call in
order, exiting with status 1 at the first failing call (`err(1, ...)`),
returning 0 at the end.  The unix `sync`/`sleep` calls between engine
calls touch no engine state and are not engine calls; the three `stat`
calls can fail and then also exit the process. -/
def mainDriver (o : Oracle) : Nat × List DCall :=
  let c0 := [DCall.dOpen dbPath 0 384]
  if o.openOk = false then (1, c0)
  else
    let c1 := c0 ++ [DCall.dSync]
    if o.syncRc ≠ BT_SUCCESS then (1, c1)
    else if o.stat1Ok = false then (1, c1)
    else
      let c2 := c1 ++ [DCall.dBegin 0]
      if o.beginOk = false then (1, c2)
      else
        let c3 := c2 ++ [DCall.dPut hiKey 3 mikeVal 5 0]
        if o.putRc ≠ BT_SUCCESS then (1, c3)
        else
          let c4 := c3 ++ [DCall.dCommit]
          if o.commitRc ≠ BT_SUCCESS then (1, c4)
          else if o.stat2Ok = false then (1, c4)
          else
            let c5 := c4 ++ [DCall.dCompact]
            if o.compactRc ≠ BT_SUCCESS then (1, c5)
            else if o.stat3Ok = false then (1, c5)
            else (0, c5)

/-- The oracle in which every external call succeeds. -/
def oracleAllOk : Oracle := ⟨true, 0, true, true, 0, 0, true, 0, true⟩

end BtreeMain

namespace BtreeDB

/-!  ## Lemma layer: stability of reads under copy-on-write growth  -/

/-- A data page readable in a store is readable, unchanged, after the
store grows at the end. -/
theorem readPage_append {data : List Page} (ext : List Page) {pid : Nat} {p : Page}
    (h : readPage data pid = some p) : readPage (data ++ ext) pid = some p := by
  unfold readPage at h ⊢
  by_cases hc : pid < 2
  · simp [hc] at h
  · simp only [if_neg hc] at h ⊢
    have hlt : pid - 2 < data.length := (List.get?_eq_some.mp h).1
    rw [List.get?_append hlt]
    exact h

/-- A successful descent is unchanged by more fuel and by pages appended
at the end of the store: copy-on-write growth never disturbs a read
that already succeeds. -/
theorem getAux_mono_append :
    ∀ (g : Nat) {g' : Nat} (data ext : List Page) (pid : Nat) (k : Bytes)
      (res : Option Bytes),
      getAux g data pid k = some res → g ≤ g' →
      getAux g' (data ++ ext) pid k = some res := by
  intro g
  induction g with
  | zero =>
    intro g' d e p k r h _
    simp [getAux] at h
  | succ n ih =>
    intro g' d e p k r h hle
    obtain ⟨g'', rfl⟩ : ∃ m, g' = m + 1 := ⟨g' - 1, by omega⟩
    simp only [getAux] at h ⊢
    cases hrp : readPage d p with
    | none => rw [hrp] at h; cases h
    | some pg =>
      rw [hrp] at h
      rw [readPage_append e hrp]
      cases pg with
      | leaf es => exact h
      | branch es =>
        dsimp only at h ⊢
        cases hbc : branchChild k es with
        | none => rw [hbc] at h; cases h
        | some c =>
          rw [hbc] at h
          dsimp only at h ⊢
          exact ih d e c k r h (by omega)

/-- A file whose data pages only grew at the end (meta pages free to
change). -/
def FileExt (f f' : DFile) : Prop := ∃ ext, f'.data = f.data ++ ext

/-- Engine growth visible to snapshot readers: every open file keeps its
identity and its data pages only grow at the end — no page reachable
from an already-recorded root is ever mutated in place. -/
def Extends (db db' : DB) : Prop :=
  ∀ i f, db.files.get? i = some f →
    ∃ f', db'.files.get? i = some f' ∧ FileExt f f'

theorem fileExt_refl {f : DFile} : FileExt f f := ⟨[], by simp⟩

theorem fileExt_trans {f g h : DFile} : FileExt f g → FileExt g h → FileExt f h := by
  rintro ⟨e1, h1⟩ ⟨e2, h2⟩
  exact ⟨e1 ++ e2, by rw [h2, h1, List.append_assoc]⟩

theorem extends_refl {db : DB} : Extends db db :=
  fun _ f h => ⟨f, h, fileExt_refl⟩

theorem extends_trans {a b c : DB} (h1 : Extends a b) (h2 : Extends b c) :
    Extends a c := by
  intro i f hf
  obtain ⟨f1, hf1, he1⟩ := h1 i f hf
  obtain ⟨f2, hf2, he2⟩ := h2 i f1 hf1
  exact ⟨f2, hf2, fileExt_trans he1 he2⟩

/-- A successful lookup from a fixed root survives file growth. -/
theorem getTree_stable {f f' : DFile} {root : Option Nat} {k : Bytes}
    {res : Option Bytes} (h : getTree f root k = some res) (he : FileExt f f') :
    getTree f' root k = some res := by
  obtain ⟨ext, hext⟩ := he
  cases root with
  | none => simpa [getTree] using h
  | some r =>
    simp only [getTree] at h ⊢
    rw [hext]
    exact getAux_mono_append _ _ _ _ _ _ h (by simp)

/-- A successful get through a transaction's snapshot is unchanged by
any engine growth. -/
theorem txnGet_stable {db db' : DB} {t : Txn} {k : Bytes} {res : Option Bytes}
    (h : txnGet db t k = some res) (he : Extends db db') :
    txnGet db' t k = some res := by
  unfold txnGet at h ⊢
  cases hf : db.files.get? t.fd with
  | none => rw [hf] at h; cases h
  | some f =>
    rw [hf] at h
    obtain ⟨f', hf', hfe⟩ := he t.fd f hf
    rw [hf']
    exact getTree_stable h hfe

/-!  ## Lemma layer: how each operation changes the engine state  -/

/-- Copy-on-write growth that additionally leaves both meta pages
untouched (what every operation of an uncommitted transaction does). -/
def MFileExt (f f' : DFile) : Prop :=
  f'.meta0 = f.meta0 ∧ f'.meta1 = f.meta1 ∧ FileExt f f'

/-- Engine growth that keeps the current handle and every file's meta
pages unchanged: no state visible through any current or snapshotted
meta root moves. -/
def MExtends (db db' : DB) : Prop :=
  db'.curFd = db.curFd ∧
  ∀ i f, db.files.get? i = some f →
    ∃ f', db'.files.get? i = some f' ∧ MFileExt f f'

theorem mextends_refl {db : DB} : MExtends db db :=
  ⟨Eq.refl _, fun _ f h => ⟨f, h, Eq.refl _, Eq.refl _, fileExt_refl⟩⟩

theorem mextends_trans {a b c : DB} (h1 : MExtends a b) (h2 : MExtends b c) :
    MExtends a c := by
  refine ⟨h2.1.trans h1.1, fun i f hf => ?_⟩
  obtain ⟨f1, hf1, m0, m1, e1⟩ := h1.2 i f hf
  obtain ⟨f2, hf2, m0', m1', e2⟩ := h2.2 i f1 hf1
  exact ⟨f2, hf2, m0'.trans m0, m1'.trans m1, fileExt_trans e1 e2⟩

theorem mextends_to_extends {a b : DB} (h : MExtends a b) : Extends a b :=
  fun i f hf => by
    obtain ⟨f', hf', _, _, he⟩ := h.2 i f hf
    exact ⟨f', hf', he⟩

/-- Reassociation helper: three appends after a common prefix. -/
theorem append_extends3 {α : Type} (a b c d : List α) :
    ∃ e, a ++ b ++ c ++ d = a ++ e :=
  ⟨b ++ (c ++ d), by simp⟩

/-- The copy-on-write insertion only appends pages to the store. -/
theorem insertAux_grows :
    ∀ (fuel : Nat) (data : List Page) (pid : Nat) (k v : Bytes)
      (d : List Page) (r : InsRes),
      insertAux fuel data pid k v = some (d, r) → ∃ ext, d = data ++ ext := by
  intro fuel
  induction fuel with
  | zero => intro d p k v d' r h; simp [insertAux] at h
  | succ n ih =>
    intro data pid k v d r h
    simp only [insertAux] at h
    cases hrp : readPage data pid with
    | none => rw [hrp] at h; cases h
    | some pg =>
      rw [hrp] at h
      cases pg with
      | leaf es =>
        dsimp only at h
        split_ifs at h with hcap
        · simp only [allocPage] at h
          obtain ⟨rfl, -⟩ := Prod.mk.injEq .. ▸ (Option.some.injEq .. ▸ h : _)
          exact ⟨_, rfl⟩
        · split at h
          · cases h
          · simp only [allocPage] at h
            obtain ⟨rfl, -⟩ := Prod.mk.injEq .. ▸ (Option.some.injEq .. ▸ h : _)
            exact ⟨_, by rw [List.append_assoc]⟩
      | branch es =>
        dsimp only at h
        cases hbc : branchChild k es with
        | none => rw [hbc] at h; cases h
        | some c =>
          rw [hbc] at h
          dsimp only at h
          cases hrec : insertAux n data c k v with
          | none => rw [hrec] at h; cases h
          | some p =>
            rw [hrec] at h
            obtain ⟨d1, res1⟩ := p
            obtain ⟨ext1, rfl⟩ := ih data c k v d1 res1 hrec
            cases res1 with
            | one nid =>
              dsimp only [allocPage] at h
              obtain ⟨rfl, -⟩ := Prod.mk.injEq .. ▸ (Option.some.injEq .. ▸ h : _)
              exact ⟨_, by rw [List.append_assoc]⟩
            | two lid sk rid =>
              dsimp only at h
              split_ifs at h with hcap
              · dsimp only [allocPage] at h
                obtain ⟨rfl, -⟩ := Prod.mk.injEq .. ▸ (Option.some.injEq .. ▸ h : _)
                exact ⟨_, by rw [List.append_assoc]⟩
              · split at h
                · cases h
                · dsimp only [allocPage] at h
                  obtain ⟨rfl, -⟩ := Prod.mk.injEq .. ▸ (Option.some.injEq .. ▸ h : _)
                  exact append_extends3 _ _ _ _

/-- A put from any root only appends pages to the store. -/
theorem putRoot_grows {data : List Page} {root : Option Nat} {k v : Bytes}
    {d : List Page} {nr : Nat} (h : putRoot data root k v = some (d, nr)) :
    ∃ ext, d = data ++ ext := by
  cases root with
  | none =>
    simp only [putRoot, allocPage] at h
    obtain ⟨rfl, -⟩ := Prod.mk.injEq .. ▸ (Option.some.injEq .. ▸ h : _)
    exact ⟨_, rfl⟩
  | some r =>
    simp only [putRoot] at h
    cases hrec : insertAux (data.length + 1) data r k v with
    | none => rw [hrec] at h; cases h
    | some p =>
      rw [hrec] at h
      obtain ⟨d1, res1⟩ := p
      obtain ⟨ext1, rfl⟩ := insertAux_grows _ _ _ _ _ _ _ hrec
      cases res1 with
      | one nid =>
        dsimp only at h
        obtain ⟨rfl, -⟩ := Prod.mk.injEq .. ▸ (Option.some.injEq .. ▸ h : _)
        exact ⟨_, rfl⟩
      | two lid sk rid =>
        dsimp only [allocPage] at h
        obtain ⟨rfl, -⟩ := Prod.mk.injEq .. ▸ (Option.some.injEq .. ▸ h : _)
        exact ⟨_, by rw [List.append_assoc]⟩

/-- What a successful `begin` does: no file changes, and the returned
transaction snapshots the current file and its current meta root in the
`active` state. -/
theorem txnBegin_shape {db db' : DB} {ro : Bool} {t : Txn}
    (h : txnBegin db ro = .ok (db', t)) :
    db'.files = db.files ∧ db'.curFd = db.curFd ∧ db'.events = db.events ∧
    t.fd = db.curFd ∧ t.readOnly = ro ∧ t.state = .active ∧ t.dirty = [] ∧
    ∃ f, db.files.get? db.curFd = some f ∧ t.root = (currentMeta f).2.root := by
  unfold txnBegin at h
  split_ifs at h
  cases hf : db.files.get? db.curFd with
  | none => rw [hf] at h; cases h
  | some f =>
    rw [hf] at h
    obtain ⟨rfl, rfl⟩ := Prod.mk.injEq .. ▸ (Except.ok.injEq .. ▸ h : _)
    exact ⟨rfl, rfl, rfl, rfl, rfl, rfl, rfl, f, rfl, rfl⟩

/-- A successful `begin` leaves the engine state unchanged apart from
the writer lock. -/
theorem txnBegin_mextends {db db' : DB} {ro : Bool} {t : Txn}
    (h : txnBegin db ro = .ok (db', t)) : MExtends db db' := by
  obtain ⟨hfiles, hfd, -⟩ := txnBegin_shape h
  exact ⟨hfd, fun i f hf => ⟨f, by rw [hfiles]; exact hf, rfl, rfl, fileExt_refl⟩⟩

/-- Updating one file in place preserves every handle, provided the
update only grows the data pages. -/
theorem extends_set {files : List DFile} {i : Nat} {f f' : DFile}
    (hf : files.get? i = some f) (hd : FileExt f f') :
    ∀ j g, files.get? j = some g →
      ∃ g', (files.set i f').get? j = some g' ∧ FileExt g g' := by
  intro j g hg
  by_cases hij : i = j
  · subst hij
    rw [hf] at hg
    obtain rfl := Option.some.injEq .. ▸ hg
    refine ⟨f', ?_, hd⟩
    rw [List.get?_set_eq, hf]
    rfl
  · exact ⟨g, by rw [List.get?_set_ne _ _ hij]; exact hg, fileExt_refl⟩

/-- Updating one file in place preserves every handle and every meta
page, provided the update only grows the data pages and keeps the
metas. -/
theorem mextends_set {files : List DFile} {i : Nat} {f f' : DFile}
    (hf : files.get? i = some f) (h0 : f'.meta0 = f.meta0)
    (h1 : f'.meta1 = f.meta1) (hd : FileExt f f') :
    ∀ j g, files.get? j = some g →
      ∃ g', (files.set i f').get? j = some g' ∧ MFileExt g g' := by
  intro j g hg
  by_cases hij : i = j
  · subst hij
    rw [hf] at hg
    obtain rfl := Option.some.injEq .. ▸ hg
    refine ⟨f', ?_, h0, h1, hd⟩
    rw [List.get?_set_eq, hf]
    rfl
  · exact ⟨g, by rw [List.get?_set_ne _ _ hij]; exact hg, rfl, rfl, fileExt_refl⟩

/-- What a successful `put` does: it only appends data pages to the
transaction's file (meta pages, the current handle, the lock and the
event log untouched), and keeps the transaction active on the same
file. -/
theorem txnPut_shape {db db' : DB} {t t' : Txn} {k v : Bytes}
    (h : txnPut db t k v = .ok (db', t')) :
    t.state = .active ∧ t.readOnly = false ∧
    db'.curFd = db.curFd ∧ db'.writerActive = db.writerActive ∧
    db'.events = db.events ∧
    t'.fd = t.fd ∧ t'.readOnly = t.readOnly ∧ t'.state = t.state ∧
    MExtends db db' := by
  unfold txnPut at h
  split_ifs at h with h1 h2
  cases hf : db.files.get? t.fd with
  | none => rw [hf] at h; cases h
  | some f =>
    rw [hf] at h
    dsimp only at h
    cases hpr : putRoot f.data t.root k v with
    | none => rw [hpr] at h; cases h
    | some p =>
      rw [hpr] at h
      obtain ⟨d, nr⟩ := p
      dsimp only at h
      obtain ⟨rfl, rfl⟩ := Prod.mk.injEq .. ▸ (Except.ok.injEq .. ▸ h : _)
      obtain ⟨ext, rfl⟩ := putRoot_grows hpr
      exact ⟨by simpa using h1, by simpa using h2, rfl, rfl, rfl, rfl, rfl, rfl,
        rfl, mextends_set hf rfl rfl ⟨ext, rfl⟩⟩

/-- What a successful `abort` does: no file changes at all; the
transaction was active and is now terminally aborted with its dirty set
discarded. -/
theorem txnAbort_shape {db db' : DB} {t t' : Txn}
    (h : txnAbort db t = .ok (db', t')) :
    db'.files = db.files ∧ db'.curFd = db.curFd ∧ db'.events = db.events ∧
    t.state = .active ∧ t'.state = .abortedSt ∧ t'.dirty = [] := by
  unfold txnAbort at h
  split_ifs at h with h1
  obtain ⟨rfl, rfl⟩ := Prod.mk.injEq .. ▸ (Except.ok.injEq .. ▸ h : _)
  exact ⟨rfl, rfl, rfl, by simpa using h1, rfl, rfl⟩

/-- A successful `abort` leaves every file byte-identical. -/
theorem txnAbort_mextends {db db' : DB} {t t' : Txn}
    (h : txnAbort db t = .ok (db', t')) : MExtends db db' := by
  obtain ⟨hfiles, hfd, -⟩ := txnAbort_shape h
  exact ⟨hfd, fun i f hf => ⟨f, by rw [hfiles]; exact hf, rfl, rfl, fileExt_refl⟩⟩

/-- What a successful `commit` does to the page stores: it rewrites only
one meta page of the transaction's file, so every file's data pages are
unchanged and every open handle still reads the same pages. -/
theorem txnCommit_extends {db db' : DB} {t t' : Txn}
    (h : txnCommit db t = .ok (db', t')) :
    db'.curFd = db.curFd ∧ Extends db db' := by
  unfold txnCommit at h
  split_ifs at h
  cases hf : db.files.get? t.fd with
  | none => rw [hf] at h; cases h
  | some f =>
    rw [hf] at h
    dsimp only at h
    obtain ⟨rfl, rfl⟩ := Prod.mk.injEq .. ▸ (Except.ok.injEq .. ▸ h : _)
    exact ⟨rfl, extends_set hf ⟨[], by split <;> simp⟩⟩

/-- A successful `compact` keeps every already-open file unchanged (the
fresh file is appended and only the current handle moves to it). -/
theorem btreeCompact_extends {db db' : DB}
    (h : btreeCompact db = .ok db') : Extends db db' := by
  unfold btreeCompact at h
  split_ifs at h
  cases hf : db.files.get? db.curFd with
  | none => rw [hf] at h; cases h
  | some f =>
    rw [hf] at h
    dsimp only at h
    cases hcf : compactFile f with
    | none => rw [hcf] at h; cases h
    | some f1 =>
      rw [hcf] at h
      obtain rfl := Except.ok.injEq .. ▸ h
      intro i g hg
      refine ⟨g, ?_, fileExt_refl⟩
      have : i < db.files.length := (List.get?_eq_some.mp hg).1
      rw [List.get?_append this]
      exact hg

/-- A successful sequence of puts inside one transaction only appends
data pages and leaves all meta pages, the current handle, the lock and
the event log unchanged; the transaction stays active on the same file. -/
theorem putMany_shape :
    ∀ (kvs : List (Bytes × Bytes)) (db db' : DB) (t t' : Txn),
      putMany db t kvs = .ok (db', t') →
      db'.curFd = db.curFd ∧ db'.writerActive = db.writerActive ∧
      db'.events = db.events ∧
      t'.fd = t.fd ∧ t'.readOnly = t.readOnly ∧ t'.state = t.state ∧
      MExtends db db' := by
  intro kvs
  induction kvs with
  | nil =>
    intro db db' t t' h
    obtain ⟨rfl, rfl⟩ := Prod.mk.injEq .. ▸ (Except.ok.injEq .. ▸ h : _)
    exact ⟨rfl, rfl, rfl, rfl, rfl, rfl, mextends_refl⟩
  | cons kv rest ih =>
    intro db db' t t' h
    obtain ⟨k, v⟩ := kv
    unfold putMany at h
    cases hp : txnPut db t k v with
    | error e => rw [hp] at h; cases h
    | ok p =>
      rw [hp] at h
      obtain ⟨db1, t1⟩ := p
      obtain ⟨-, -, h3, h4, h5, h6, h7, h8, h9⟩ := txnPut_shape hp
      obtain ⟨g3, g4, g5, g6, g7, g8, g9⟩ := ih db1 db' t1 t' h
      exact ⟨g3.trans h3, g4.trans h4, g5.trans h5, g6.trans h6,
        g7.trans h7, g8.trans h8, mextends_trans h9 g9⟩

/-- A successful handle-level get is unchanged by meta-preserving
growth. -/
theorem btreeGet_stable {db db' : DB} {k : Bytes} {res : Option Bytes}
    (h : btreeGet db k = some res) (he : MExtends db db') :
    btreeGet db' k = some res := by
  unfold btreeGet at h ⊢
  rw [he.1]
  cases hf : db.files.get? db.curFd with
  | none => rw [hf] at h; cases h
  | some f =>
    rw [hf] at h
    obtain ⟨f', hf', m0, m1, hfe⟩ := he.2 db.curFd f hf
    rw [hf']
    dsimp only at h ⊢
    have hcm : currentMeta f' = currentMeta f := by
      unfold currentMeta; rw [m0, m1]
    rw [hcm]
    exact getTree_stable h hfe

/-- A transaction's snapshot get at begin time equals the handle-level
get of the state it began in. -/
theorem txnBegin_get {db db' : DB} {ro : Bool} {t : Txn} (k : Bytes)
    (h : txnBegin db ro = .ok (db', t)) :
    txnGet db' t k = btreeGet db k := by
  obtain ⟨hfiles, -, -, hfd, -, -, -, f, hf, hroot⟩ := txnBegin_shape h
  unfold txnGet btreeGet
  rw [hfiles, hfd, hf, hroot]

/-- C1: in the driver's execution — open an empty database, `sync()`
(file size S0), `begin(write)`, `put` of the key buffer `"Hi"` (3
bytes) with value buffer `"Mike"` (5 bytes), `commit()` (file size S1),
`compact()` (file size S2) — every call succeeds, the sizes satisfy
`S1 > S0` and `S2 ≤ S1`, and `get` on the stored key returns the stored
value both after the commit and again after the compaction. -/
theorem driver_scenario_sizes_and_gets :
    txnBegin scen1 false = .ok scen2 ∧
    txnPut scen2.1 scen2.2 hiKey mikeVal = .ok scen3 ∧
    txnCommit scen3.1 scen3.2 = .ok scen4 ∧
    btreeCompact scen4.1 = .ok scen5 ∧
    dbSize scen1 < dbSize scen4.1 ∧
    btreeGet scen4.1 hiKey = some (some mikeVal) ∧
    dbSize scen5 ≤ dbSize scen4.1 ∧
    btreeGet scen5 hiKey = some (some mikeVal) :=
  ⟨rfl, rfl, rfl, rfl, by decide, by decide, by decide, by decide⟩

/-- C2: every successful commit appends durability events in which all
the transaction's dirty data pages are written at positions strictly
before an fsync barrier, the single alternate-slot meta write (carrying
the new root id and the incremented transaction counter) comes right
after that barrier, and a final fsync follows the meta write: the meta
update never precedes the data fsync. -/
theorem commit_durability_order (db db' : DB) (t t' : Txn)
    (h : txnCommit db t = .ok (db', t')) :
    ∃ (f : DFile) (evs : List Ev),
      db.files.get? t.fd = some f ∧
      db'.events = db.events ++ evs ∧
      (∀ p, p ∈ t.dirty → Ev.writeData p ∈ evs) ∧
      evs.get? t.dirty.length = some Ev.fsync ∧
      evs.get? (t.dirty.length + 1) =
        some (Ev.writeMeta (1 - (currentMeta f).1) t.root
          ((currentMeta f).2.txnid + 1)) ∧
      evs.get? (t.dirty.length + 2) = some Ev.fsync ∧
      (∀ i p, evs.get? i = some (Ev.writeData p) → i < t.dirty.length) ∧
      (∀ j s rt n, evs.get? j = some (Ev.writeMeta s rt n) →
        j = t.dirty.length + 1) := by
  unfold txnCommit at h
  split_ifs at h
  cases hf : db.files.get? t.fd with
  | none => rw [hf] at h; cases h
  | some f =>
    rw [hf] at h
    dsimp only at h
    obtain ⟨rfl, rfl⟩ := Prod.mk.injEq .. ▸ (Except.ok.injEq .. ▸ h : _)
    refine ⟨f, commitEvents t (1 - (currentMeta f).1) ((currentMeta f).2.txnid + 1),
      rfl, rfl, ?_, ?_, ?_, ?_, ?_, ?_⟩
    · intro p hp
      exact List.mem_append_left _ (List.mem_map_of_mem _ hp)
    · unfold commitEvents
      rw [List.get?_append_right (by simp)]
      simp
    · unfold commitEvents
      rw [List.get?_append_right (by simp)]
      simp
    · unfold commitEvents
      rw [List.get?_append_right (by simp)]
      simp
    · intro i p hi
      by_contra hge
      push_neg at hge
      unfold commitEvents at hi
      rw [List.get?_append_right (by simpa using hge)] at hi
      have hL : t.dirty.length ≤ i := by simpa using hge
      rcases Nat.lt_or_ge (i - (t.dirty.map Ev.writeData).length) 3 with h3 | h3
      · interval_cases hm : (i - (t.dirty.map Ev.writeData).length) <;> simp_all
      · rw [List.get?_eq_none.mpr (by simpa using h3)] at hi
        cases hi
    · intro j s rt n hj
      unfold commitEvents at hj
      rcases Nat.lt_or_ge j (t.dirty.map Ev.writeData).length with hlt | hge
      · rw [List.get?_append hlt, List.get?_map] at hj
        cases hd : t.dirty.get? j with
        | none => rw [hd] at hj; cases hj
        | some p => rw [hd] at hj; cases hj
      · rw [List.get?_append_right hge] at hj
        rcases Nat.lt_or_ge (j - (t.dirty.map Ev.writeData).length) 3 with h3 | h3
        · interval_cases hm : (j - (t.dirty.map Ev.writeData).length) <;>
            simp_all <;> omega
        · rw [List.get?_eq_none.mpr (by simpa using h3)] at hj
          cases hj

/-- Witness for the C2 theorem: the commit of the driver's scenario. -/
theorem commit_durability_order_witness :
    ∃ (f : DFile) (evs : List Ev),
      scen3.1.files.get? scen3.2.fd = some f ∧
      scen4.1.events = scen3.1.events ++ evs ∧
      (∀ p, p ∈ scen3.2.dirty → Ev.writeData p ∈ evs) ∧
      evs.get? scen3.2.dirty.length = some Ev.fsync ∧
      evs.get? (scen3.2.dirty.length + 1) =
        some (Ev.writeMeta (1 - (currentMeta f).1) scen3.2.root
          ((currentMeta f).2.txnid + 1)) ∧
      evs.get? (scen3.2.dirty.length + 2) = some Ev.fsync ∧
      (∀ i p, evs.get? i = some (Ev.writeData p) → i < scen3.2.dirty.length) ∧
      (∀ j s rt n, evs.get? j = some (Ev.writeMeta s rt n) →
        j = scen3.2.dirty.length + 1) :=
  commit_durability_order scen3.1 scen4.1 scen3.2 scen4.2 rfl

/-- C3: snapshot isolation — a read transaction begun before a write
commits keeps observing its begin-time snapshot: whatever its get
returned at begin is still returned after any sequence of puts by a
writer, after that writer's commit, and after a subsequent compaction;
moreover the reader's file is never mutated in place — its data pages
at most grow at the end. -/
theorem read_snapshot_isolation
    (db0 dbr db1 db2 db3 : DB) (r w w1 w2 : Txn)
    (kvs : List (Bytes × Bytes)) (k : Bytes) (res : Option Bytes)
    (hr : txnBegin db0 true = .ok (dbr, r))
    (h0 : txnGet dbr r k = some res)
    (hp : putMany dbr w kvs = .ok (db1, w1))
    (hc : txnCommit db1 w1 = .ok (db2, w2))
    (hcmp : btreeCompact db2 = .ok db3) :
    btreeGet db0 k = some res ∧
    txnGet db2 r k = some res ∧
    txnGet db3 r k = some res ∧
    ∃ f f', dbr.files.get? r.fd = some f ∧ db3.files.get? r.fd = some f' ∧
      FileExt f f' := by
  have e1 : Extends dbr db1 :=
    mextends_to_extends (putMany_shape kvs dbr db1 w w1 hp).2.2.2.2.2.2
  have e2 : Extends db1 db2 := (txnCommit_extends hc).2
  have e3 : Extends db2 db3 := btreeCompact_extends hcmp
  have h2 : txnGet db2 r k = some res := txnGet_stable h0 (extends_trans e1 e2)
  have h3 : txnGet db3 r k = some res := txnGet_stable h2 e3
  refine ⟨?_, h2, h3, ?_⟩
  · rw [← txnBegin_get k hr]
    exact h0
  · have hf : ∃ f, dbr.files.get? r.fd = some f := by
      unfold txnGet at h0
      cases hf : dbr.files.get? r.fd with
      | none => rw [hf] at h0; cases h0
      | some f => exact ⟨f, rfl⟩
    obtain ⟨f, hf⟩ := hf
    obtain ⟨f', hf', hfe⟩ := (extends_trans (extends_trans e1 e2) e3) r.fd f hf
    exact ⟨f, f', hf, hf', hfe⟩

/-- States of the snapshot-isolation witness run: a reader begins on the
freshly opened database, a writer puts the driver's pair and commits,
then the database is compacted. -/
def wrTxn : Txn := ⟨false, 0, none, [], .active⟩

/-- Witness run: reader begin on the fresh database. -/
def wscenR : DB × Txn := exGet (scen1, dummyTxn) (txnBegin scen1 true)

/-- Witness run: the writer's put of the driver's pair. -/
def wscenP : DB × Txn :=
  exGet (wscenR.1, wrTxn) (putMany wscenR.1 wrTxn [(hiKey, mikeVal)])

/-- Witness run: the writer's commit. -/
def wscenC : DB × Txn := exGet wscenP (txnCommit wscenP.1 wscenP.2)

/-- Witness run: the compaction after the commit. -/
def wscenK : DB := exGet wscenC.1 (btreeCompact wscenC.1)

/-- Witness for the C3 theorem: the reader of the witness run still
reads `NotFound` for the driver's key after the writer's put, commit
and the compaction. -/
theorem read_snapshot_isolation_witness :
    btreeGet scen1 hiKey = some none ∧
    txnGet wscenC.1 wscenR.2 hiKey = some none ∧
    txnGet wscenK wscenR.2 hiKey = some none ∧
    ∃ f f', wscenR.1.files.get? wscenR.2.fd = some f ∧
      wscenK.files.get? wscenR.2.fd = some f' ∧ FileExt f f' :=
  read_snapshot_isolation scen1 wscenR.1 wscenP.1 wscenC.1 wscenK
    wscenR.2 wrTxn wscenP.2 wscenC.2 [(hiKey, mikeVal)] hiKey none
    rfl (by decide) rfl rfl rfl

/-- C5: the transaction state machine is `Active → {Committed, Aborted}`
with the terminal states absorbing: a successful commit moves an active
transaction to `Committed`, a successful abort moves an active
transaction to `Aborted`, and calling commit or abort on a transaction
that is already terminal fails with `TransactionStateError` (so nothing
moves a transaction out of a terminal state). -/
theorem txn_state_machine (db : DB) (t : Txn) :
    (∀ db' t', txnCommit db t = .ok (db', t') →
      t.state = .active ∧ t'.state = .committedSt) ∧
    (∀ db' t', txnAbort db t = .ok (db', t') →
      t.state = .active ∧ t'.state = .abortedSt) ∧
    (t.state ≠ .active →
      txnCommit db t = .error .transactionStateError ∧
      txnAbort db t = .error .transactionStateError) := by
  refine ⟨?_, ?_, ?_⟩
  · intro db' t' h
    unfold txnCommit at h
    split_ifs at h with h1 h2
    cases hf : db.files.get? t.fd with
    | none => rw [hf] at h; cases h
    | some f =>
      rw [hf] at h
      dsimp only at h
      obtain ⟨rfl, rfl⟩ := Prod.mk.injEq .. ▸ (Except.ok.injEq .. ▸ h : _)
      exact ⟨by simpa using h1, rfl⟩
  · intro db' t' h
    obtain ⟨-, -, -, h4, h5, -⟩ := txnAbort_shape h
    exact ⟨h4, h5⟩
  · intro hne
    constructor
    · unfold txnCommit
      rw [if_pos hne]
    · unfold txnAbort
      rw [if_pos hne]

/-- Witness for the C5 theorem: the scenario's committed transaction is
terminal, so committing or aborting it again fails with
`TransactionStateError`. -/
theorem txn_state_machine_witness :
    txnCommit scen4.1 scen4.2 = .error .transactionStateError ∧
    txnAbort scen4.1 scen4.2 = .error .transactionStateError :=
  (txn_state_machine scen4.1 scen4.2).2.2 (by decide)

/-- C6: `begin(write)` fails with `LockBusy` exactly when another write
transaction is active, a successful `begin(write)` takes the lock (so a
second writer immediately fails with `LockBusy`: at most one writer
exists), and `begin(read)` never fails with `LockBusy`, does not take
the lock, and records only the current meta snapshot's root id. -/
theorem begin_writer_lock (db : DB) :
    (txnBegin db false = .error .lockBusy ↔ db.writerActive = true) ∧
    (∀ db' w, txnBegin db false = .ok (db', w) →
      w.readOnly = false ∧ db'.writerActive = true ∧
      txnBegin db' false = .error .lockBusy) ∧
    txnBegin db true ≠ .error .lockBusy ∧
    (∀ db' r, txnBegin db true = .ok (db', r) →
      r.readOnly = true ∧ r.dirty = [] ∧ r.fd = db.curFd ∧
      db'.files = db.files ∧ db'.writerActive = db.writerActive ∧
      ∃ f, db.files.get? db.curFd = some f ∧
        r.root = (currentMeta f).2.root) := by
  refine ⟨⟨?_, ?_⟩, ?_, ?_, ?_⟩
  · intro h
    unfold txnBegin at h
    split_ifs at h with hw
    · simpa using hw
    · cases hf : db.files.get? db.curFd with
      | none => rw [hf] at h; cases h
      | some f => rw [hf] at h; cases h
  · intro hw
    unfold txnBegin
    rw [if_pos (by simp [hw])]
  · intro db' w h
    have hsh := txnBegin_shape h
    obtain ⟨hfiles, -, -, -, hro, -⟩ := hsh
    refine ⟨hro, ?_, ?_⟩
    · unfold txnBegin at h
      split_ifs at h with hw
      cases hf : db.files.get? db.curFd with
      | none => rw [hf] at h; cases h
      | some f =>
        rw [hf] at h
        obtain ⟨rfl, rfl⟩ := Prod.mk.injEq .. ▸ (Except.ok.injEq .. ▸ h : _)
        simp
    · unfold txnBegin at h ⊢
      split_ifs at h with hw
      cases hf : db.files.get? db.curFd with
      | none => rw [hf] at h; cases h
      | some f =>
        rw [hf] at h
        obtain ⟨rfl, rfl⟩ := Prod.mk.injEq .. ▸ (Except.ok.injEq .. ▸ h : _)
        rw [if_pos (by simp)]
  · intro h
    unfold txnBegin at h
    split_ifs at h with hw
    · simp at hw
    · cases hf : db.files.get? db.curFd with
      | none => rw [hf] at h; simp at h
      | some f => rw [hf] at h; simp at h
  · intro db' r h
    obtain ⟨hfiles, -, -, hfd, hro, -, hdirty, f, hf, hroot⟩ := txnBegin_shape h
    refine ⟨hro, hdirty, hfd, hfiles, ?_, f, hf, hroot⟩
    unfold txnBegin at h
    split_ifs at h
    cases hf' : db.files.get? db.curFd with
    | none => rw [hf'] at h; cases h
    | some f' =>
      rw [hf'] at h
      obtain ⟨rfl, rfl⟩ := Prod.mk.injEq .. ▸ (Except.ok.injEq .. ▸ h : _)
      simp

/-- Witness for the C6 theorem: after the scenario's write begin the
lock is held and a second write begin fails with `LockBusy`. -/
theorem begin_writer_lock_witness :
    scen2.2.readOnly = false ∧ scen2.1.writerActive = true ∧
    txnBegin scen2.1 false = .error .lockBusy :=
  (begin_writer_lock scen1).2.1 scen2.1 scen2.2 rfl

/-- C7: an aborted write transaction leaves no observable trace — after
any sequence of puts inside a write transaction that is then aborted,
the handle-level content is exactly what it was before the transaction
began, and a read transaction begun after the abort reads exactly that
previous content (keys written only inside the aborted transaction are
absent, previously committed values unchanged). -/
theorem abort_leaves_no_trace
    (db0 dbw db1 db2 db3 : DB) (w w1 w2 r : Txn)
    (kvs : List (Bytes × Bytes)) (k : Bytes) (res : Option Bytes)
    (h0 : btreeGet db0 k = some res)
    (hw : txnBegin db0 false = .ok (dbw, w))
    (hp : putMany dbw w kvs = .ok (db1, w1))
    (ha : txnAbort db1 w1 = .ok (db2, w2))
    (hr : txnBegin db2 true = .ok (db3, r)) :
    btreeGet db2 k = some res ∧ txnGet db3 r k = some res := by
  have m1 : MExtends db0 dbw := txnBegin_mextends hw
  have m2 : MExtends dbw db1 := (putMany_shape kvs dbw db1 w w1 hp).2.2.2.2.2.2
  have m3 : MExtends db1 db2 := txnAbort_mextends ha
  have h2 : btreeGet db2 k = some res :=
    btreeGet_stable h0 (mextends_trans (mextends_trans m1 m2) m3)
  refine ⟨h2, ?_⟩
  rw [txnBegin_get k hr]
  exact h2

/-- Abort-witness run: a second write transaction begun after the
driver's commit. -/
def ascenW : DB × Txn := exGet (scen4.1, dummyTxn) (txnBegin scen4.1 false)

/-- Abort-witness run: a put of a fresh key inside that transaction. -/
def ascenP : DB × Txn :=
  exGet ascenW (putMany ascenW.1 ascenW.2 [([1, 2], [3])])

/-- Abort-witness run: the abort of that transaction. -/
def ascenA : DB × Txn := exGet ascenP (txnAbort ascenP.1 ascenP.2)

/-- Abort-witness run: a read transaction begun after the abort. -/
def ascenR : DB × Txn := exGet (ascenA.1, dummyTxn) (txnBegin ascenA.1 true)

/-- Witness for the C7 theorem: after aborting a transaction that put a
fresh key, the driver's committed key still reads its value. -/
theorem abort_leaves_no_trace_witness :
    btreeGet ascenA.1 hiKey = some (some mikeVal) ∧
    txnGet ascenR.1 ascenR.2 hiKey = some (some mikeVal) :=
  abort_leaves_no_trace scen4.1 ascenW.1 ascenP.1 ascenA.1 ascenR.1
    ascenW.2 ascenP.2 ascenA.2 ascenR.2 [([1, 2], [3])] hiKey (some mikeVal)
    (by decide) rfl rfl rfl rfl

/-!  ## Lemma layer: correctness of the compactor's copy  -/

/-- Fuel monotonicity of descent, with the store unchanged. -/
theorem getAux_mono {g g' : Nat} {data : List Page} {pid : Nat} {k : Bytes}
    {res : Option Bytes} (h : getAux g data pid k = some res) (hle : g ≤ g') :
    getAux g' data pid k = some res := by
  have := getAux_mono_append g data [] pid k res h hle
  simpa using this

/-- The compactor's subtree copy only appends to the destination store. -/
theorem copyTree_grows :
    ∀ (fuel : Nat) (src : List Page) (pid : Nat) (dst dst2 : List Page) (nid : Nat),
      copyTree fuel src pid dst = some (dst2, nid) → ∃ ext, dst2 = dst ++ ext := by
  intro fuel
  induction fuel with
  | zero => intro src pid dst dst2 nid h; simp [copyTree] at h
  | succ fl ih =>
    intro src pid dst dst2 nid h
    simp only [copyTree] at h
    cases hrp : readPage src pid with
    | none => rw [hrp] at h; cases h
    | some pg =>
      rw [hrp] at h
      cases pg with
      | leaf es =>
        dsimp only [allocPage] at h
        obtain ⟨rfl, -⟩ := Prod.mk.injEq .. ▸ (Option.some.injEq .. ▸ h : _)
        exact ⟨_, rfl⟩
      | branch es =>
        dsimp only at h
        have hcl : ∀ (l : List (Bytes × Nat)) (d0 d1 : List Page)
            (l' : List (Bytes × Nat)),
            copyList (fun c d => copyTree fl src c d) l d0 = some (d1, l') →
            ∃ ext, d1 = d0 ++ ext := by
          intro l
          induction l with
          | nil =>
            intro d0 d1 l' hx
            simp only [copyList] at hx
            obtain ⟨rfl, -⟩ := Prod.mk.injEq .. ▸ (Option.some.injEq .. ▸ hx : _)
            exact ⟨[], by simp⟩
          | cons e rest ihe =>
            intro d0 d1 l' hx
            obtain ⟨s, c⟩ := e
            simp only [copyList] at hx
            cases h1 : copyTree fl src c d0 with
            | none => rw [h1] at hx; cases hx
            | some pr =>
              rw [h1] at hx
              obtain ⟨dA, c'⟩ := pr
              dsimp only at hx
              cases h2 : copyList (fun c d => copyTree fl src c d) rest dA with
              | none => rw [h2] at hx; cases hx
              | some pr2 =>
                rw [h2] at hx
                obtain ⟨dB, rest'⟩ := pr2
                dsimp only at hx
                obtain ⟨rfl, -⟩ := Prod.mk.injEq .. ▸ (Option.some.injEq .. ▸ hx : _)
                obtain ⟨e1, rfl⟩ := ih _ _ _ _ _ h1
                obtain ⟨e2, rfl⟩ := ihe _ _ _ h2
                exact ⟨e1 ++ e2, by rw [List.append_assoc]⟩
        cases hx : copyList (fun c d => copyTree fl src c d) es dst with
        | none => rw [hx] at h; cases h
        | some pr =>
          rw [hx] at h
          obtain ⟨dst', es'⟩ := pr
          dsimp only [allocPage] at h
          obtain ⟨rfl, -⟩ := Prod.mk.injEq .. ▸ (Option.some.injEq .. ▸ h : _)
          obtain ⟨e1, rfl⟩ := hcl es dst dst' es' hx
          exact ⟨e1 ++ [Page.branch es'], by rw [List.append_assoc]⟩

/-- Copying a list of children only appends to the destination store. -/
theorem copyList_grows (fl : Nat) (src : List Page) :
    ∀ (l : List (Bytes × Nat)) (d0 d1 : List Page) (l' : List (Bytes × Nat)),
      copyList (fun c d => copyTree fl src c d) l d0 = some (d1, l') →
      ∃ ext, d1 = d0 ++ ext := by
  intro l
  induction l with
  | nil =>
    intro d0 d1 l' hx
    simp only [copyList] at hx
    obtain ⟨rfl, -⟩ := Prod.mk.injEq .. ▸ (Option.some.injEq .. ▸ hx : _)
    exact ⟨[], by simp⟩
  | cons e rest ihe =>
    intro d0 d1 l' hx
    obtain ⟨s, c⟩ := e
    simp only [copyList] at hx
    cases h1 : copyTree fl src c d0 with
    | none => rw [h1] at hx; cases hx
    | some pr =>
      rw [h1] at hx
      obtain ⟨dA, c'⟩ := pr
      dsimp only at hx
      cases h2 : copyList (fun c d => copyTree fl src c d) rest dA with
      | none => rw [h2] at hx; cases hx
      | some pr2 =>
        rw [h2] at hx
        obtain ⟨dB, rest'⟩ := pr2
        dsimp only at hx
        obtain ⟨rfl, -⟩ := Prod.mk.injEq .. ▸ (Option.some.injEq .. ▸ hx : _)
        obtain ⟨e1, rfl⟩ := copyTree_grows fl src c d0 _ c' h1
        obtain ⟨e2, rfl⟩ := ihe _ _ _ h2
        exact ⟨e1 ++ e2, by rw [List.append_assoc]⟩

/-- The selected child of two branch entry lists with equal separators
and pointwise-related children is pointwise related. -/
theorem branchSel_forall2 {R : Nat → Nat → Prop} (k : Bytes) :
    ∀ {es es' : List (Bytes × Nat)},
      List.Forall₂ (fun e e' => e.1 = e'.1 ∧ R e.2 e'.2) es es' →
      ∀ {a a'}, R a a' → R (branchSel k a es) (branchSel k a' es') := by
  intro es es' hf
  induction hf with
  | nil => intro a a' h; simpa [branchSel] using h
  | cons h1 _ ih =>
    intro a a' h
    rename_i e e' rest rest' hrest
    obtain ⟨s, c⟩ := e
    obtain ⟨s', c'⟩ := e'
    obtain ⟨hs, hc⟩ := h1
    dsimp only at hs
    subst hs
    simp only [branchSel]
    by_cases hle : bytesLe s k = true
    · rw [if_pos hle, if_pos hle]
      exact ih hc
    · rw [if_neg hle, if_neg hle]
      exact h

/-- Copying a branch's children preserves, entry by entry, the
separator and the lookup behaviour of the child subtree (relative to
the final destination store, under any further growth). -/
theorem copyList_get (k : Bytes) (g0 : Nat) (src : List Page) (fl : Nat)
    (IH : ∀ (fuel pid : Nat) (dst dst2 : List Page) (nid : Nat)
      (res : Option Bytes),
      copyTree fuel src pid dst = some (dst2, nid) →
      getAux g0 src pid k = some res →
      ∀ ext, getAux (dst2.length + 1) (dst2 ++ ext) nid k = some res) :
    ∀ (es : List (Bytes × Nat)) (dst dst' : List Page) (es' : List (Bytes × Nat)),
      copyList (fun c d => copyTree fl src c d) es dst = some (dst', es') →
      List.Forall₂ (fun e e' => e.1 = e'.1 ∧
        ∀ res, getAux g0 src e.2 k = some res →
          ∀ ext2, getAux (dst'.length + 1) (dst' ++ ext2) e'.2 k = some res)
        es es' := by
  intro es
  induction es with
  | nil =>
    intro dst dst' es' h
    simp only [copyList] at h
    obtain ⟨-, rfl⟩ := Prod.mk.injEq .. ▸ (Option.some.injEq .. ▸ h : _)
    exact List.Forall₂.nil
  | cons e rest ihl =>
    intro dst dst' es' h
    obtain ⟨s, c⟩ := e
    simp only [copyList] at h
    cases h1 : copyTree fl src c dst with
    | none => rw [h1] at h; cases h
    | some pr =>
      rw [h1] at h
      obtain ⟨dst1, c'⟩ := pr
      dsimp only at h
      cases h2 : copyList (fun c d => copyTree fl src c d) rest dst1 with
      | none => rw [h2] at h; cases h
      | some pr2 =>
        rw [h2] at h
        obtain ⟨dst2, rest'⟩ := pr2
        dsimp only at h
        obtain ⟨rfl, rfl⟩ := Prod.mk.injEq .. ▸ (Option.some.injEq .. ▸ h : _)
        have hfa := ihl dst1 dst2 rest' h2
        obtain ⟨e2, hext2⟩ := copyList_grows fl src rest dst1 dst2 rest' h2
        refine List.Forall₂.cons ⟨rfl, ?_⟩ hfa
        intro res hres ext3
        have h1' := IH fl c dst dst1 c' res h1 hres (e2 ++ ext3)
        rw [hext2, List.append_assoc]
        exact getAux_mono h1' (by simp [hext2])

/-- The compactor's copy preserves lookups: a key that resolves in the
source subtree resolves to the same result in the copied subtree, in
the grown destination store under any further growth. -/
theorem copyTree_get (k : Bytes) :
    ∀ (g : Nat) (src : List Page) (fuel pid : Nat) (dst dst2 : List Page)
      (nid : Nat) (res : Option Bytes),
      copyTree fuel src pid dst = some (dst2, nid) →
      getAux g src pid k = some res →
      ∀ ext, getAux (dst2.length + 1) (dst2 ++ ext) nid k = some res := by
  intro g
  induction g with
  | zero =>
    intro src fuel pid dst dst2 nid res hc hg ext
    simp [getAux] at hg
  | succ g0 ih =>
    intro src fuel pid dst dst2 nid res hc hg ext
    cases fuel with
    | zero => simp [copyTree] at hc
    | succ fl =>
      simp only [copyTree] at hc
      simp only [getAux] at hg
      cases hrp : readPage src pid with
      | none => rw [hrp] at hg; cases hg
      | some pg =>
        rw [hrp] at hc hg
        cases pg with
        | leaf es =>
          dsimp only [allocPage] at hc
          obtain ⟨rfl, rfl⟩ := Prod.mk.injEq .. ▸ (Option.some.injEq .. ▸ hc : _)
          simp only [getAux]
          have hrd : readPage (dst ++ [Page.leaf es] ++ ext) (2 + dst.length) =
              some (Page.leaf es) := by
            unfold readPage
            rw [if_neg (by omega)]
            have h2 : 2 + dst.length - 2 = dst.length := by omega
            rw [h2, List.get?_append (by simp)]
            exact List.get?_concat_length dst _
          rw [hrd]
          exact hg
        | branch es =>
          dsimp only at hg hc
          cases hbc : branchChild k es with
          | none => rw [hbc] at hg; cases hg
          | some c =>
            rw [hbc] at hg
            dsimp only at hg
            cases hcl : copyList (fun c d => copyTree fl src c d) es dst with
            | none => rw [hcl] at hc; cases hc
            | some pr =>
              rw [hcl] at hc
              obtain ⟨dst', es'⟩ := pr
              dsimp only [allocPage] at hc
              obtain ⟨rfl, rfl⟩ := Prod.mk.injEq .. ▸ (Option.some.injEq .. ▸ hc : _)
              have hfa := copyList_get k g0 src fl (fun fuel pid dst dst2 nid res =>
                ih src fuel pid dst dst2 nid res) es dst dst' es' hcl
              -- the selected child of the copied branch simulates c
              have hsel : ∀ c1, branchChild k es = some c1 →
                  ∃ c1', branchChild k es' = some c1' ∧
                    ∀ res1, getAux g0 src c1 k = some res1 →
                      ∀ ext2, getAux (dst'.length + 1) (dst' ++ ext2) c1' k = some res1 := by
                intro c1 hc1
                cases es with
                | nil => cases hc1
                | cons e0 rest0 =>
                  cases hfa with
                  | cons h0 htail =>
                    rename_i e0' rest0'
                    obtain ⟨s0, c0⟩ := e0
                    obtain ⟨s0', c0'⟩ := e0'
                    obtain ⟨hs0, hc0⟩ := h0
                    simp only [branchChild] at hc1 ⊢
                    obtain rfl := Option.some.injEq .. ▸ hc1
                    exact ⟨_, rfl,
                      @branchSel_forall2
                        (fun a a' => ∀ res1, getAux g0 src a k = some res1 →
                          ∀ ext2, getAux (dst'.length + 1) (dst' ++ ext2) a' k = some res1)
                        k _ _ htail _ _ hc0⟩
              obtain ⟨c', hbc', hcsim⟩ := hsel c hbc
              simp only [getAux]
              have hrd : readPage (dst' ++ [Page.branch es'] ++ ext)
                  (2 + dst'.length) = some (Page.branch es') := by
                unfold readPage
                rw [if_neg (by omega)]
                have h2 : 2 + dst'.length - 2 = dst'.length := by omega
                rw [h2, List.get?_append (by simp)]
                exact List.get?_concat_length dst' _
              rw [hrd]
              dsimp only
              rw [hbc']
              have := hcsim res hg ([Page.branch es'] ++ ext)
              rw [← List.append_assoc] at this
              exact getAux_mono this (by simp)

/-- The compactor copies exactly the live pages: the destination grows
by the length of the live-page preorder of the copied subtree. -/
theorem copyTree_length :
    ∀ (fuel : Nat) (src : List Page) (pid : Nat) (dst dst2 : List Page) (nid : Nat),
      copyTree fuel src pid dst = some (dst2, nid) →
      ∃ l, liveIds fuel src pid = some l ∧
        dst2.length = dst.length + l.length := by
  intro fuel
  induction fuel with
  | zero => intro src pid dst dst2 nid h; simp [copyTree] at h
  | succ fl ih =>
    intro src pid dst dst2 nid h
    simp only [copyTree] at h
    simp only [liveIds]
    cases hrp : readPage src pid with
    | none => rw [hrp] at h; cases h
    | some pg =>
      rw [hrp] at h
      cases pg with
      | leaf es =>
        dsimp only [allocPage] at h
        obtain ⟨rfl, -⟩ := Prod.mk.injEq .. ▸ (Option.some.injEq .. ▸ h : _)
        exact ⟨[pid], rfl, by simp⟩
      | branch es =>
        dsimp only at h ⊢
        have hcl : ∀ (l : List (Bytes × Nat)) (d0 d1 : List Page)
            (l' : List (Bytes × Nat)),
            copyList (fun c d => copyTree fl src c d) l d0 = some (d1, l') →
            ∃ ids, liveList (fun c => liveIds fl src c) l = some ids ∧
              d1.length = d0.length + ids.length := by
          intro l
          induction l with
          | nil =>
            intro d0 d1 l' hx
            simp only [copyList] at hx
            obtain ⟨rfl, -⟩ := Prod.mk.injEq .. ▸ (Option.some.injEq .. ▸ hx : _)
            exact ⟨[], rfl, by simp⟩
          | cons e rest ihe =>
            intro d0 d1 l' hx
            obtain ⟨s, c⟩ := e
            simp only [copyList] at hx
            cases h1 : copyTree fl src c d0 with
            | none => rw [h1] at hx; cases hx
            | some pr =>
              rw [h1] at hx
              obtain ⟨dA, c'⟩ := pr
              dsimp only at hx
              cases h2 : copyList (fun c d => copyTree fl src c d) rest dA with
              | none => rw [h2] at hx; cases hx
              | some pr2 =>
                rw [h2] at hx
                obtain ⟨dB, rest'⟩ := pr2
                dsimp only at hx
                obtain ⟨rfl, -⟩ := Prod.mk.injEq .. ▸ (Option.some.injEq .. ▸ hx : _)
                obtain ⟨ids1, hl1, hn1⟩ := ih _ _ _ _ _ h1
                obtain ⟨ids2, hl2, hn2⟩ := ihe _ _ _ h2
                refine ⟨ids1 ++ ids2, ?_, ?_⟩
                · simp only [liveList]
                  rw [hl1]
                  dsimp only
                  rw [hl2]
                · rw [hn2, hn1, List.length_append]
                  omega
        cases hx : copyList (fun c d => copyTree fl src c d) es dst with
        | none => rw [hx] at h; cases h
        | some pr =>
          rw [hx] at h
          obtain ⟨dst', es'⟩ := pr
          dsimp only [allocPage] at h
          obtain ⟨rfl, -⟩ := Prod.mk.injEq .. ▸ (Option.some.injEq .. ▸ h : _)
          obtain ⟨ids, hl, hn⟩ := hcl es dst dst' es' hx
          rw [hl]
          refine ⟨pid :: ids, rfl, ?_⟩
          rw [List.length_append, hn]
          simp
          omega

/-- Every page id visited by the live-page traversal is a valid data
page id of the store. -/
theorem liveIds_bound :
    ∀ (fuel : Nat) (data : List Page) (pid : Nat) (l : List Nat),
      liveIds fuel data pid = some l →
      ∀ i, i ∈ l → 2 ≤ i ∧ i - 2 < data.length := by
  intro fuel
  induction fuel with
  | zero => intro data pid l h; simp [liveIds] at h
  | succ fl ih =>
    intro data pid l h
    simp only [liveIds] at h
    cases hrp : readPage data pid with
    | none => rw [hrp] at h; cases h
    | some pg =>
      rw [hrp] at h
      have hpid : 2 ≤ pid ∧ pid - 2 < data.length := by
        unfold readPage at hrp
        split_ifs at hrp with hc
        exact ⟨by omega, (List.get?_eq_some.mp hrp).1⟩
      cases pg with
      | leaf es =>
        obtain rfl := Option.some.injEq .. ▸ h
        intro i hi
        rw [List.mem_singleton] at hi
        subst hi
        exact hpid
      | branch es =>
        dsimp only at h
        have hll : ∀ (es0 : List (Bytes × Nat)) (l0 : List Nat),
            liveList (fun c => liveIds fl data c) es0 = some l0 →
            ∀ i, i ∈ l0 → 2 ≤ i ∧ i - 2 < data.length := by
          intro es0
          induction es0 with
          | nil =>
            intro l0 hx
            simp only [liveList] at hx
            obtain rfl := Option.some.injEq .. ▸ hx
            intro i hi
            cases hi
          | cons e rest ihe =>
            intro l0 hx
            obtain ⟨s, c⟩ := e
            simp only [liveList] at hx
            cases h1 : liveIds fl data c with
            | none => rw [h1] at hx; cases hx
            | some l1 =>
              rw [h1] at hx
              dsimp only at hx
              cases h2 : liveList (fun c => liveIds fl data c) rest with
              | none => rw [h2] at hx; cases hx
              | some l2 =>
                rw [h2] at hx
                obtain rfl := Option.some.injEq .. ▸ hx
                intro i hi
                rcases List.mem_append.mp hi with hi1 | hi2
                · exact ih data c l1 h1 i hi1
                · exact ihe l2 h2 i hi2
        cases hx : liveList (fun c => liveIds fl data c) es with
        | none => rw [hx] at h; cases h
        | some l1 =>
          rw [hx] at h
          obtain rfl := Option.some.injEq .. ▸ h
          intro i hi
          rcases List.mem_cons.mp hi with hi1 | hi2
          · subst hi1; exact hpid
          · exact hll es l1 hx i hi2

/-- A duplicate-free list of valid data page ids of a store is no
longer than the store. -/
theorem nodup_bound_length {l : List Nat} {n : Nat} (hnd : l.Nodup)
    (hb : ∀ i, i ∈ l → 2 ≤ i ∧ i - 2 < n) : l.length ≤ n := by
  have hcard : l.toFinset.card = l.length := List.toFinset_card_of_nodup hnd
  have hsub : l.toFinset ⊆ Finset.Ico 2 (2 + n) := by
    intro x hx
    rw [List.mem_toFinset] at hx
    obtain ⟨h1, h2⟩ := hb x hx
    rw [Finset.mem_Ico]
    omega
  have := Finset.card_le_card hsub
  rw [hcard, Nat.card_Ico] at this
  omega

/-- Compacting a file preserves every successful lookup and, for a
well-formed tree, never grows the data pages. -/
theorem compactFile_spec {f f' : DFile} (h : compactFile f = some f') :
    (∀ k res, getTree f (currentMeta f).2.root k = some res →
      getTree f' (currentMeta f').2.root k = some res) ∧
    (treeWF f = true → f'.data.length ≤ f.data.length) := by
  unfold compactFile at h
  cases hroot : (currentMeta f).2.root with
  | none =>
    rw [hroot] at h
    dsimp only at h
    obtain rfl := Option.some.injEq .. ▸ h
    constructor
    · intro k res hres
      simp only [getTree] at hres
      obtain rfl := Option.some.injEq .. ▸ hres
      simp [getTree, currentMeta]
    · intro _
      simp
  | some r =>
    rw [hroot] at h
    dsimp only at h
    cases hct : copyTree (f.data.length + 1) f.data r [] with
    | none => rw [hct] at h; cases h
    | some pr =>
      rw [hct] at h
      obtain ⟨d, nr⟩ := pr
      dsimp only at h
      obtain rfl := Option.some.injEq .. ▸ h
      constructor
      · intro k res hres
        simp only [getTree] at hres
        have hcm : currentMeta
            (⟨⟨some nr, (currentMeta f).2.txnid⟩, ⟨none, 0⟩, d⟩ : DFile) =
            (0, ⟨some nr, (currentMeta f).2.txnid⟩) := by
          simp [currentMeta]
        rw [hcm]
        simp only [getTree]
        have := copyTree_get k (f.data.length + 1) f.data (f.data.length + 1) r
          [] d nr res hct hres []
        simpa using this
      · intro hwf
        unfold treeWF at hwf
        rw [hroot] at hwf
        dsimp only at hwf
        obtain ⟨l, hl, hn⟩ := copyTree_length _ _ _ _ _ _ hct
        rw [hl] at hwf
        dsimp only at hwf
        have hnd : l.Nodup := by simpa using hwf
        have hb := liveIds_bound _ _ _ _ hl
        have := nodup_bound_length hnd hb
        simpa [hn] using this

/-- C4: `compact()` preserves logical content and never grows the file —
for every database state whose current tree is well formed, every key
readable before compaction reads the same value after it (in
particular every key committed before compaction keeps its value), and
the file size behind the handle after compaction is at most the size
before. -/
theorem compact_preserves (db db' : DB) (f : DFile)
    (hf : db.files.get? db.curFd = some f) (hwf : treeWF f = true)
    (h : btreeCompact db = .ok db') :
    (∀ k res, btreeGet db k = some res → btreeGet db' k = some res) ∧
    dbSize db' ≤ dbSize db := by
  unfold btreeCompact at h
  split_ifs at h
  rw [hf] at h
  dsimp only at h
  cases hcf : compactFile f with
  | none => rw [hcf] at h; cases h
  | some f1 =>
    rw [hcf] at h
    obtain rfl := Except.ok.injEq .. ▸ h
    obtain ⟨hget, hsize⟩ := compactFile_spec hcf
    have hcur : (db.files ++ [f1]).get? db.files.length = some f1 :=
      List.get?_concat_length db.files f1
    constructor
    · intro k res hres
      unfold btreeGet at hres ⊢
      rw [hf] at hres
      dsimp only at hres ⊢
      rw [hcur]
      exact hget k res hres
    · unfold dbSize
      rw [hf]
      dsimp only
      rw [hcur]
      unfold DFile.size
      have := hsize hwf
      have h2 : 2 + f1.data.length ≤ 2 + f.data.length := by omega
      exact Nat.mul_le_mul_right pageSize h2

/-- The current file of the scenario state after the driver's commit. -/
def scen4file : DFile := (scen4.1.files.get? scen4.1.curFd).getD initFile

/-- Witness for the C4 theorem: compacting the driver's committed state
keeps the stored key readable with its value and does not grow the
file. -/
theorem compact_preserves_witness :
    btreeGet scen5 hiKey = some (some mikeVal) ∧ dbSize scen5 ≤ dbSize scen4.1 :=
  ⟨(compact_preserves scen4.1 scen5 scen4file (by decide) (by decide) rfl).1
      hiKey (some mikeVal) (by decide),
   (compact_preserves scen4.1 scen5 scen4file (by decide) (by decide) rfl).2⟩

end BtreeDB

namespace BtreeMain

open BtreeDB

/-- The driver issues one of exactly six call sequences, each a prefix
of the full straight-line sequence open, sync, begin(write), put,
commit, compact. -/
theorem mainDriver_calls (o : Oracle) :
    (mainDriver o).2 = [DCall.dOpen dbPath 0 384] ∨
    (mainDriver o).2 = [DCall.dOpen dbPath 0 384, DCall.dSync] ∨
    (mainDriver o).2 = [DCall.dOpen dbPath 0 384, DCall.dSync, DCall.dBegin 0] ∨
    (mainDriver o).2 = [DCall.dOpen dbPath 0 384, DCall.dSync, DCall.dBegin 0,
      DCall.dPut hiKey 3 mikeVal 5 0] ∨
    (mainDriver o).2 = [DCall.dOpen dbPath 0 384, DCall.dSync, DCall.dBegin 0,
      DCall.dPut hiKey 3 mikeVal 5 0, DCall.dCommit] ∨
    (mainDriver o).2 = [DCall.dOpen dbPath 0 384, DCall.dSync, DCall.dBegin 0,
      DCall.dPut hiKey 3 mikeVal 5 0, DCall.dCommit, DCall.dCompact] := by
  simp only [mainDriver]
  split_ifs <;> simp

/-- C8: every put the driver issues passes the 3-byte key buffer
`'H','i',NUL` with size field 3 and the 5-byte value buffer
`'M','i','k','e',NUL` with size field 5; the NUL terminators are part
of the stored key and value, so the stored key differs from the 2-byte
sequence `"Hi"` — and indeed, in the engine state after the driver's
commit, a get of the 2-byte key finds nothing while the 3-byte key maps
to the 5-byte value. -/
theorem driver_put_buffers (o : Oracle) (kd vd : List Nat) (ks vs fl : Nat)
    (h : DCall.dPut kd ks vd vs fl ∈ (mainDriver o).2) :
    kd = [72, 105, 0] ∧ ks = 3 ∧ vd = [77, 105, 107, 101, 0] ∧ vs = 5 ∧
    kd.take ks ≠ [72, 105] ∧
    btreeGet scen4.1 [72, 105] = some none ∧
    btreeGet scen4.1 (kd.take ks) = some (some (vd.take vs)) := by
  rcases mainDriver_calls o with hc | hc | hc | hc | hc | hc <;> rw [hc] at h <;>
    simp [hiKey, mikeVal, dbPath] at h
  all_goals
    obtain ⟨h1, h2, h3, h4, h5⟩ := h
    subst h1; subst h2; subst h3; subst h4
    exact ⟨rfl, rfl, rfl, rfl, by decide, by decide, by decide⟩

/-- Witness for the C8 theorem at the all-success oracle. -/
theorem driver_put_buffers_witness :
    hiKey = [72, 105, 0] ∧ (3 : Nat) = 3 ∧
    mikeVal = [77, 105, 107, 101, 0] ∧ (5 : Nat) = 5 ∧
    hiKey.take 3 ≠ [72, 105] ∧
    btreeGet scen4.1 [72, 105] = some none ∧
    btreeGet scen4.1 (hiKey.take 3) = some (some (mikeVal.take 5)) :=
  driver_put_buffers oracleAllOk hiKey mikeVal 3 5 0 (by decide)

/-- C9: the driver is fail-fast — `main` returns 0 or 1; it returns 0
only if `btree_open` and `btree_txn_begin` return non-NULL and
`btree_sync`, `btree_txn_put`, `btree_txn_commit` and `btree_compact`
all return `BT_SUCCESS`; each engine call is issued only if every
earlier engine call succeeded (so in particular a failing put means
commit is never called); and any engine-call failure makes the process
exit with status 1. -/
theorem driver_fail_fast (o : Oracle) :
    ((mainDriver o).1 = 0 ∨ (mainDriver o).1 = 1) ∧
    ((mainDriver o).1 = 0 →
      o.openOk = true ∧ o.syncRc = BT_SUCCESS ∧ o.beginOk = true ∧
      o.putRc = BT_SUCCESS ∧ o.commitRc = BT_SUCCESS ∧ o.compactRc = BT_SUCCESS) ∧
    (DCall.dSync ∈ (mainDriver o).2 → o.openOk = true) ∧
    (DCall.dBegin 0 ∈ (mainDriver o).2 →
      o.openOk = true ∧ o.syncRc = BT_SUCCESS) ∧
    (DCall.dPut hiKey 3 mikeVal 5 0 ∈ (mainDriver o).2 →
      o.openOk = true ∧ o.syncRc = BT_SUCCESS ∧ o.beginOk = true) ∧
    (DCall.dCommit ∈ (mainDriver o).2 →
      o.openOk = true ∧ o.syncRc = BT_SUCCESS ∧ o.beginOk = true ∧
      o.putRc = BT_SUCCESS) ∧
    (DCall.dCompact ∈ (mainDriver o).2 →
      o.openOk = true ∧ o.syncRc = BT_SUCCESS ∧ o.beginOk = true ∧
      o.putRc = BT_SUCCESS ∧ o.commitRc = BT_SUCCESS) ∧
    ((o.openOk = false ∨ o.syncRc ≠ BT_SUCCESS ∨ o.beginOk = false ∨
        o.putRc ≠ BT_SUCCESS ∨ o.commitRc ≠ BT_SUCCESS ∨ o.compactRc ≠ BT_SUCCESS) →
      (mainDriver o).1 = 1) := by
  obtain ⟨o1, o2, o3, o4, o5, o6, o7, o8, o9⟩ := o
  simp only [mainDriver]
  split_ifs <;> simp_all

/-- Witness for the C9 theorem at the all-success oracle. -/
theorem driver_fail_fast_witness :
    oracleAllOk.openOk = true ∧ oracleAllOk.syncRc = BT_SUCCESS ∧
    oracleAllOk.beginOk = true ∧ oracleAllOk.putRc = BT_SUCCESS ∧
    oracleAllOk.commitRc = BT_SUCCESS ∧ oracleAllOk.compactRc = BT_SUCCESS :=
  (driver_fail_fast oracleAllOk).2.1 (by decide)

/-- C10: in every execution of the driver, at most one transaction is
begun, any begin is a write begin (read-only flag 0), commit is issued
at most once, and the driver never calls abort, get, delete, or close. -/
theorem driver_call_shape (o : Oracle) :
    ((mainDriver o).2.countP
        (fun c => match c with | DCall.dBegin _ => true | _ => false) ≤ 1) ∧
    (∀ ro, DCall.dBegin ro ∈ (mainDriver o).2 → ro = 0) ∧
    ((mainDriver o).2.count DCall.dCommit ≤ 1) ∧
    DCall.dAbort ∉ (mainDriver o).2 ∧
    (∀ kd, DCall.dGet kd ∉ (mainDriver o).2) ∧
    (∀ kd, DCall.dDel kd ∉ (mainDriver o).2) ∧
    DCall.dClose ∉ (mainDriver o).2 := by
  rcases mainDriver_calls o with hc | hc | hc | hc | hc | hc <;> rw [hc] <;>
    refine ⟨by decide, ?_, by decide, by decide, ?_, ?_, by decide⟩ <;>
    intro x <;> simp [hiKey, mikeVal, dbPath]

/-- Witness for the C10 theorem at the all-success oracle. -/
theorem driver_call_shape_witness :
    DCall.dAbort ∉ (mainDriver oracleAllOk).2 ∧ (0 : Nat) = 0 :=
  ⟨(driver_call_shape oracleAllOk).2.2.2.1,
   (driver_call_shape oracleAllOk).2.1 0 (by decide)⟩

end BtreeMain
